import Mathlib

/-!
Shallow embedding of `src/core/interpreter.py` (the `terps` shell framework).

Python strings are modelled as `List Char` (named `Str`), so that Python's
`startswith`, `in` (substring), `split`, `strip` and slicing translate to
list operations with full induction principles.  Attribute dictionaries
(`dir(self)` / `getattr` / `setattr` / `delattr`) are modelled as association
lists from attribute name to a `Handler` record carrying the data the code
observes on an attribute value: its `__name__`, its `__doc__`, and its
behaviour when called as a 4-argument completion function.
-/

set_option autoImplicit false
set_option linter.unusedVariables false

namespace Terps

abbrev Str := List Char

/-- Shorthand to write string literals as `Str` values. -/
def str (s : String) : Str := s.toList

/-- The observable surface of a Python attribute value (a bound method or
function): `__name__`, `__doc__` (`none` models Python `None`), and its
behaviour when invoked as a `complete_*`-style function
`(text, line, begidx, endidx) -> list`. -/
structure Handler where
  hname : Str
  hdoc : Option Str
  compFn : Str → Str → Int → Int → List Str

/-- Interpreter instance state: the live attribute map (merged class and
instance attributes, keys unique as in a Python namespace), the cached
alias-name snapshot `self.aliases`, the completion cache
`self.__cache`, the pluggable `self.completion_source`, the per-keystroke
candidate list `self.completion_matches`, and the `SHOW_ALIAS` flag. -/
structure Interp where
  attrs : List (Str × Handler)
  aliases : List Str
  cache : List (Str × List Str)
  completion_source : Str → List Str
  completion_matches : List Str
  show_alias : Bool

/-- `getattr`/dict lookup on an association list keyed by attribute name. -/
def alookup {α : Type} : List (Str × α) → Str → Option α
  | [], _ => none
  | (k, v) :: rest, key => if k = key then some v else alookup rest key

/-- `i in hay` for Python strings: `needle` occurs as a contiguous substring. -/
def containsSub (hay needle : Str) : Bool :=
  hay.tails.any (fun s => needle.isPrefixOf s)

/-- The comprehension
`[i for i in {opt for opt in cands} if i.startswith(text) and i not in line]`
shared by both branches of `_cache_completion` (the set comprehension
deduplicates; iteration order of a Python set is unspecified, and only the
membership of the result is stated in the theorems below). -/
def filter_candidates (cands : List Str) (text line : Str) : List Str :=
  cands.dedup.filter (fun i => text.isPrefixOf i && !(containsSub line i))

/-- `CacheCompleteMix._cache_completion(self, key, text, line, begidx, endidx)`:
on a cache hit, filter the cached candidate set; on a `KeyError`, populate
`self.__cache[key]` from `self.completion_source(key)` and filter that.
Returns the candidate list together with the possibly-updated state. -/
def cache_completion (st : Interp) (key text line : Str) (begidx endidx : Int) :
    List Str × Interp :=
  match alookup st.cache key with
  | some cands => (filter_candidates cands text line, st)
  | none =>
      let fetched := st.completion_source key
      (filter_candidates fetched text line,
       { st with cache := (key, fetched) :: st.cache })

/-- Characters stripped by Python's no-argument `str.strip()` / `str.lstrip()`
(ASCII whitespace; the claims never involve non-ASCII whitespace). -/
def pyIsSpace (c : Char) : Bool :=
  c = ' ' || c = '\t' || c = '\n' || c = '\r' || c = '\x0b' || c = '\x0c'

/-- Python `str.lstrip()`. -/
def pyLStrip (l : Str) : Str := l.dropWhile pyIsSpace

/-- Python `str.rstrip()`. -/
def pyRStrip (l : Str) : Str := (l.reverse.dropWhile pyIsSpace).reverse

/-- Python `str.strip()`. -/
def pyStrip (l : Str) : Str := pyRStrip (pyLStrip l)

/-- Membership in `cmd.Cmd.identchars` (ASCII letters, digits, underscore). -/
def isIdentChar (c : Char) : Bool :=
  ('a' ≤ c && c ≤ 'z') || ('A' ≤ c && c ≤ 'Z') || ('0' ≤ c && c ≤ '9') || c = '_'

/-- Python `s.split(sep)` for a one-character separator: splits at every
occurrence, keeping empty pieces (`''.split(' ') == ['']`). -/
def splitOnChar (sep : Char) : Str → List Str
  | [] => [[]]
  | c :: rest =>
      match splitOnChar sep rest with
      | [] => [[]]
      | h :: t => if c = sep then [] :: h :: t else (c :: h) :: t

/-- Result of `cmd.Cmd.parseline`: either `(None, None, line)` or
`(cmd, arg, line)` with `cmd` the maximal `identchars` prefix of the
(possibly rewritten) stripped line and `arg` the stripped remainder. -/
inductive ParseResult
  | empty (line : Str)
  | parsed (cmd arg line : Str)

/-- The common tail of `parseline`: scan off the `identchars` prefix of `l`
as the command and strip the remainder as the argument. -/
def scanLine (l : Str) : ParseResult :=
  .parsed (l.takeWhile isIdentChar) (pyStrip (l.dropWhile isIdentChar)) l

/-- `cmd.Cmd.parseline(self, line)`: strip the line; an empty line yields
`(None, None, '')`; a leading `?` rewrites to `help …`; a leading `!`
rewrites to `shell …` when a `do_shell` attribute exists, else yields
`(None, None, line)`; otherwise scan the command prefix. -/
def parseline (st : Interp) (line0 : Str) : ParseResult :=
  match pyStrip line0 with
  | [] => .empty []
  | c :: rest =>
      if c = '?' then scanLine (str "help " ++ rest)
      else if c = '!' then
        if (alookup st.attrs (str "do_shell")).isSome then
          scanLine (str "shell " ++ rest)
        else .empty (c :: rest)
      else scanLine (c :: rest)

/-- `AliasMix.get_names(self)`: `dir(self)` — the attribute listing of the
instance (modelled as the key list of the attribute map; `dir` returns each
attribute name once). -/
def get_names (st : Interp) : List Str := st.attrs.map Prod.fst

/-- The set comprehension of `get_aliases` over a given attribute listing:
`{i[6:] for i in names if i.startswith(self.ALIAS_PREFIX)}`
(`ALIAS_PREFIX = 'alias_'`, length 6; a Python set, modelled as the
deduplicated list of suffixes). -/
def aliasesOfNames (names : List Str) : List Str :=
  ((names.filter (fun i => (str "alias_").isPrefixOf i)).map
    (fun i => i.drop 6)).dedup

/-- `AliasMix.get_aliases(self)`. -/
def get_aliases (st : Interp) : List Str := aliasesOfNames (get_names st)

/-- `AliasMix.completedefault(self, text, line, begidx, endidx)`:
`[i[3:] for i in self.get_names() if i.startswith('do_') and 'EOF' not in i]`. -/
def completedefault (st : Interp) (text line : Str) (begidx endidx : Int) : List Str :=
  ((get_names st).filter
    (fun i => (str "do_").isPrefixOf i && !(containsSub i (str "EOF")))).map
    (fun i => i.drop 3)

/-- `getattr(self, a).__doc__ is not None` for an attribute name `a`. -/
def docIsSome (st : Interp) (a : Str) : Bool :=
  match alookup st.attrs a with
  | some h => h.hdoc.isSome
  | none => false

/-- The command half of `AliasMix.completenames`:
`[a[3:] for a in names if a.startswith('do_' + text) and getattr(self, a).__doc__ is not None]`. -/
def cmdCandidates (st : Interp) (text : Str) : List Str :=
  ((get_names st).filter
    (fun a => (str "do_" ++ text).isPrefixOf a && docIsSome st a)).map
    (fun a => a.drop 3)

/-- The alias half of `AliasMix.completenames` (taken when `SHOW_ALIAS`):
`[a[6:] for a in names if a.startswith(self.ALIAS_PREFIX + text) and getattr(self, a).__doc__ is not None]`. -/
def aliasCandidates (st : Interp) (text : Str) : List Str :=
  ((get_names st).filter
    (fun a => (str "alias_" ++ text).isPrefixOf a && docIsSome st a)).map
    (fun a => a.drop 6)

/-- `AliasMix.completenames(self, text, *ignored)`: matching command names
(with a non-`None` doc), followed by matching alias names when `SHOW_ALIAS`
is set, else no aliases. -/
def completenames (st : Interp) (text : Str) : List Str :=
  let names := get_names st
  let cmds := (names.filter
    (fun a => (str "do_" ++ text).isPrefixOf a && docIsSome st a)).map
    (fun a => a.drop 3)
  let aliases :=
    if st.show_alias then
      (names.filter
        (fun a => (str "alias_" ++ text).isPrefixOf a && docIsSome st a)).map
        (fun a => a.drop 6)
    else []
  cmds ++ aliases

/-- Observable outcome of `AliasMix.default(self, line)`. -/
inductive DispatchResult
  | invoked (h : Handler) (arg : Str)
  | unknown (line : Str)
  | error

/-- `AliasMix.default(self, line)`: re-parse the line, collect every attribute
named `'do_' + cmd` or `ALIAS_PREFIX + cmd` in attribute-listing order, and
invoke the first with the parsed argument; with no match, fall through to
`cmd.Cmd.default` (report unrecognised input).  A `None` command (empty line
or `!` without `do_shell`) makes `'do_' + cmd` raise `TypeError`. -/
def defaultDispatch (st : Interp) (line : Str) : DispatchResult :=
  match parseline st line with
  | .empty _ => .error
  | .parsed cmd arg _ =>
      match (get_names st).filter
          (fun n => n = str "do_" ++ cmd || n = str "alias_" ++ cmd) with
      | [] => .unknown line
      | n :: _ =>
          match alookup st.attrs n with
          | some h => .invoked h arg
          | none => .error

/-- The readline-supplied per-keystroke inputs read by `complete` at state 0:
`readline.get_line_buffer()`, `readline.get_begidx()`, `readline.get_endidx()`. -/
structure Readline where
  buffer : Str
  begidx : Int
  endidx : Int

/-- Outcome of `AliasMix.complete`: a returned value (`some candidate` or
`None`) together with the post-call state, or a propagated exception. -/
inductive CompleteOutcome
  | ok (res : Option Str) (st : Interp)
  | exn

/-- `AliasMix.complete(self, text, state)`: at state 0, strip the readline
buffer, adjust the cursor offsets, pick a completion function (per-command
`complete_<cmd>`, via alias indirection `complete_<target-name minus 'do_'>`,
or `completedefault`; `completenames` when the adjusted begin offset is ≤ 0),
compute and store `self.completion_matches`; at every state, return
`self.completion_matches[state]`, or `None` on `IndexError`.  A `None`
command with a positive begin offset raises `TypeError` (uncaught). -/
def complete (st : Interp) (rl : Readline) (text : Str) (state : Nat) :
    CompleteOutcome :=
  if state = 0 then
    let origline := rl.buffer
    let line := pyLStrip origline
    let stripped : Int := (origline.length : Int) - (line.length : Int)
    let begidx := rl.begidx - stripped
    let endidx := rl.endidx - stripped
    let matches? : Option (List Str) :=
      if begidx > 0 then
        match parseline st line with
        | .empty _ => none
        | .parsed cmd _ _ =>
            if cmd = [] then some (completedefault st text line begidx endidx)
            else
              match alookup st.attrs (str "complete_" ++ cmd) with
              | some ch => some (ch.compFn text line begidx endidx)
              | none =>
                  match alookup st.attrs (str "alias_" ++ cmd) with
                  | some ah =>
                      match alookup st.attrs (str "complete_" ++ ah.hname.drop 3) with
                      | some ch2 => some (ch2.compFn text line begidx endidx)
                      | none => some (completedefault st text line begidx endidx)
                  | none => some (completedefault st text line begidx endidx)
      else some (completenames st text)
    match matches? with
    | none => .exn
    | some ms => .ok ms[state]? { st with completion_matches := ms }
  else .ok st.completion_matches[state]? st

/-- Observable outcome of `AliasMix.do_help(self, arg)` (docstring text is
carried raw; its trimming for display is an external collaborator). -/
inductive HelpResult
  | provider (h : Handler)
  | doc (d : Str)
  | nohelp
  | listing

/-- `AliasMix.do_help(self, arg)` for the observable outcome: with a topic,
invoke `help_<arg>` if that attribute exists; else if `do_<arg>` exists and
its `__doc__` is truthy, print it; else if `do_<arg>` is absent, `alias_<arg>`
exists and its `__doc__` is truthy, print that; else print
`self.nohelp % arg`.  With an empty topic, render the categorised listing. -/
def do_help (st : Interp) (arg : Str) : HelpResult :=
  if arg ≠ [] then
    match alookup st.attrs (str "help_" ++ arg) with
    | some h => .provider h
    | none =>
        match alookup st.attrs (str "do_" ++ arg) with
        | some h =>
            match h.hdoc with
            | some d => if d ≠ [] then .doc d else .nohelp
            | none => .nohelp
        | none =>
            match alookup st.attrs (str "alias_" ++ arg) with
            | some h =>
                match h.hdoc with
                | some d => if d ≠ [] then .doc d else .nohelp
                | none => .nohelp
            | none => .nohelp
  else .listing

/-- `setattr(self, k, v)`: replace the binding of `k`, or add it. -/
def aupdate : List (Str × Handler) → Str → Handler → List (Str × Handler)
  | [], k, v => [(k, v)]
  | (k', v') :: rest, k, v =>
      if k' = k then (k, v) :: rest else (k', v') :: aupdate rest k v

/-- `delattr(self, k)`: remove the binding of `k` (keys are unique in a
Python namespace, so removing the first occurrence suffices). -/
def aremove : List (Str × Handler) → Str → List (Str × Handler)
  | [], _ => []
  | (k', v') :: rest, k =>
      if k' = k then rest else (k', v') :: aremove rest k

/-- `self._wrap_alias(alias)`: `'{}{}'.format(self.ALIAS_PREFIX, alias)`. -/
def wrap_alias (a : Str) : Str := str "alias_" ++ a

/-- The listing expression of `do_alias`:
`''.join('{}: {}\n'.format(alias, getattr(self, self._wrap_alias(alias)).__name__[3:]) for alias in self.aliases)`;
`none` models the `AttributeError` raised when a cached alias has no live
attribute. -/
def formatAliases (st : Interp) : Option Str :=
  (st.aliases.mapM (fun a =>
    (alookup st.attrs (wrap_alias a)).map
      (fun h => a ++ str ": " ++ h.hname.drop 3 ++ str "\n"))).map
    List.flatten

/-- `AliasCmdInterpreter.do_alias(self, *args, suppress=False)`: with a
non-empty argument, split on single spaces; resolve the second token first as
`do_<token>`, then as `alias_<token>`; if resolved, bind `alias_<first>` to
that handler and recompute `self.aliases`; otherwise delete `alias_<first>`
(silently if absent) and, when something was deleted, recompute
`self.aliases`.  With an empty argument, format the alias listing and either
write it (returning nothing) or return it when `suppress` is set.  The result
is `(state, text written to stdout, returned value)`; `none` models an
uncaught exception from the listing branch. -/
def do_alias (st : Interp) (arg : Str) (suppress : Bool) :
    Option (Interp × Str × Option Str) :=
  if arg ≠ [] then
    let parts := splitOnChar ' ' arg
    let tgt : Option Handler :=
      match parts[1]? with
      | none => none
      | some t =>
          match alookup st.attrs (str "do_" ++ t) with
          | some h => some h
          | none => alookup st.attrs (str "alias_" ++ t)
    let newAlias := wrap_alias parts.headI
    match tgt with
    | some h =>
        let st1 : Interp := { st with attrs := aupdate st.attrs newAlias h }
        some ({ st1 with aliases := get_aliases st1 }, [], none)
    | none =>
        if (alookup st.attrs newAlias).isSome then
          let st1 : Interp := { st with attrs := aremove st.attrs newAlias }
          some ({ st1 with aliases := get_aliases st1 }, [], none)
        else some (st, [], none)
  else
    match formatAliases st with
    | none => none
    | some s => if suppress then some (st, [], some s) else some (st, s, none)

/-- `AliasCmdInterpreter.__default_alias(self, force=False)`: seed
`alias_a -> self.do_alias` when no `alias_a` attribute exists or `force` is
set.  Note: it does not recompute `self.aliases`. -/
def default_alias (st : Interp) (doAliasH : Handler) (force : Bool) : Interp :=
  if (alookup st.attrs (wrap_alias (str "a"))).isNone || force then
    { st with attrs := aupdate st.attrs (wrap_alias (str "a")) doAliasH }
  else st

/-- `AliasCmdInterpreter.__init__(self, enable_alias=True, force_alias=False)`
over a given class/instance attribute map: `AliasMix.__init__` first caches
`self.aliases = self.get_aliases()`, then (when `enable_alias`) the default
alias is seeded.  `doAliasH` is the `self.do_alias` bound method found on the
instance. -/
def mkInterp (base : List (Str × Handler)) (doAliasH : Handler)
    (enable_alias force_alias : Bool) : Interp :=
  let st0 : Interp :=
    { attrs := base
      aliases := aliasesOfNames (base.map Prod.fst)
      cache := []
      completion_source := fun _ => []
      completion_matches := []
      show_alias := false }
  if enable_alias then default_alias st0 doAliasH force_alias else st0

/-- Python `s.split('\n')`-style line parsing of the alias listing: split a
single `name: target` line at the first occurrence of `": "`. -/
def splitColonSpace : Str → Option (Str × Str)
  | [] => none
  | [_] => none
  | c :: d :: rest =>
      if c = ':' && d = ' ' then some ([], rest)
      else (splitColonSpace (d :: rest)).map (fun p => (c :: p.1, p.2))

/-- Parse the `format_aliases` output line-by-line as `name: target` pairs
(the output ends with a newline, so the final empty piece is dropped). -/
def parseAliasLines (s : Str) : Option (List (Str × Str)) :=
  ((splitOnChar '\n' s).dropLast).mapM splitColonSpace

/-- Render a list of `(alias, target)` entries the way the listing branch of
`do_alias` does: one `alias: target\n` line per entry. -/
def renderAliasLines (es : List (Str × Str)) : Str :=
  (es.map (fun p => p.1 ++ str ": " ++ p.2 ++ str "\n")).flatten

/-- A documented `quit` command handler (also the handler the `q` alias of the
running examples is bound to). -/
def hQuit : Handler := ⟨str "do_quit", some (str "exit the shell"), fun _ _ _ _ => []⟩

/-- A documented `help` command handler. -/
def hHelp : Handler := ⟨str "do_help", some (str "help doc"), fun _ _ _ _ => []⟩

/-- The `do_alias` bound-method handler (documented). -/
def hAliasCmd : Handler := ⟨str "do_alias", some (str "alias doc"), fun _ _ _ _ => []⟩

/-- The `do_EOF` handler: a `@staticmethod` with no doc string. -/
def hEOF : Handler := ⟨str "do_EOF", none, fun _ _ _ _ => []⟩

/-- An undocumented `x` command handler. -/
def hNoDoc : Handler := ⟨str "do_x", none, fun _ _ _ _ => []⟩

/-- The class-level command attributes of `AliasCmdInterpreter` (in `dir`
order). -/
def classAttrs : List (Str × Handler) :=
  [(str "do_EOF", hEOF), (str "do_alias", hAliasCmd),
   (str "do_help", hHelp), (str "do_quit", hQuit)]

/-- A running interpreter: the class commands plus an alias `q -> do_quit`
(with the cached alias set in sync), one populated completion-cache entry and
a stored per-keystroke candidate list. -/
def demo : Interp :=
  { attrs := [(str "alias_q", hQuit), (str "do_EOF", hEOF), (str "do_alias", hAliasCmd),
              (str "do_help", hHelp), (str "do_quit", hQuit)]
    aliases := [str "q"]
    cache := [(str "k", [str "aa", str "ab"])]
    completion_source := fun _ => [str "src1"]
    completion_matches := [str "m0", str "m1"]
    show_alias := false }

/-- `demo` with the `SHOW_ALIAS` configuration flag enabled. -/
def demoShow : Interp := { demo with show_alias := true }

/-- A state exhibiting the help-chain divergence: a command `x` with no doc
string alongside an alias `x` whose bound handler is documented. -/
def helpBug : Interp :=
  { attrs := [(str "alias_x", hQuit), (str "do_x", hNoDoc)]
    aliases := [str "x"]
    cache := []
    completion_source := fun _ => []
    completion_matches := []
    show_alias := false }

section CacheLemmas

theorem mem_filter_candidates {cands : List Str} {text line i : Str}
    (h : i ∈ filter_candidates cands text line) :
    i ∈ cands ∧ text <+: i ∧ ¬ i <:+: line := by
  unfold filter_candidates at h
  rw [List.mem_filter] at h
  obtain ⟨hmem, hcond⟩ := h
  rw [List.mem_dedup] at hmem
  rw [Bool.and_eq_true] at hcond
  obtain ⟨hpre, hnin⟩ := hcond
  refine ⟨hmem, List.isPrefixOf_iff_prefix.mp hpre, ?_⟩
  intro hinf
  have : containsSub line i = true := by
    unfold containsSub
    rw [List.any_eq_true]
    obtain ⟨t, hpt, hts⟩ := List.infix_iff_prefix_suffix.mp hinf
    exact ⟨t, (List.mem_tails t line).mpr hts, List.isPrefixOf_iff_prefix.mpr hpt⟩
  simp [this] at hnin

theorem filter_candidates_subset {cands : List Str} {text line i : Str}
    (h : i ∈ filter_candidates cands text line) : i ∈ cands :=
  (mem_filter_candidates h).1

end CacheLemmas

/-- C1: every candidate returned by `_cache_completion(k, t, l, …)` is a member
of the cached candidate set stored for `k` (which on a cache miss is first
populated from `completion_source k`), starts with `t`, and does not occur as
a substring of `l`; a successive query with the same key (any text/line)
again returns only members of that same cached set. -/
theorem C1_cache_completion_sound (st : Interp) (k t l : Str) (b e : Int) :
    ∃ cands,
      alookup (cache_completion st k t l b e).2.cache k = some cands ∧
      cands = (alookup st.cache k).getD (st.completion_source k) ∧
      (∀ i ∈ (cache_completion st k t l b e).1, i ∈ cands ∧ t <+: i ∧ ¬ i <:+: l) ∧
      (∀ t2 l2 b2 e2, ∀ i ∈ (cache_completion (cache_completion st k t l b e).2 k t2 l2 b2 e2).1,
        i ∈ cands) := by
  unfold cache_completion
  cases hk : alookup st.cache k with
  | some cands =>
      refine ⟨cands, ?_, ?_, ?_, ?_⟩
      · simpa using hk
      · simp [hk]
      · intro i hi
        exact mem_filter_candidates hi
      · intro t2 l2 b2 e2 i hi
        simp only [hk] at hi
        exact filter_candidates_subset hi
  | none =>
      refine ⟨st.completion_source k, ?_, ?_, ?_, ?_⟩
      · simp [alookup]
      · simp [hk]
      · intro i hi
        exact mem_filter_candidates hi
      · intro t2 l2 b2 e2 i hi
        simp only [alookup, if_pos rfl] at hi
        exact filter_candidates_subset hi

/-- C8: once a key `k` is populated in the completion cache, no later call to
`_cache_completion` (with any key `k2`) modifies, replaces or removes `k`'s
entry, and a call with an uncached key adds only that key's entry, leaving
every other entry unchanged. -/
theorem C8_cache_frame (st : Interp) (k : Str) (v : List Str) (k2 t l : Str) (b e : Int)
    (h : alookup st.cache k = some v) :
    alookup (cache_completion st k2 t l b e).2.cache k = some v ∧
    ∀ k', k' ≠ k2 →
      alookup (cache_completion st k2 t l b e).2.cache k' = alookup st.cache k' := by
  unfold cache_completion
  cases hk2 : alookup st.cache k2 with
  | some cands =>
      exact ⟨h, fun k' _ => rfl⟩
  | none =>
      constructor
      · have hne : k2 ≠ k := by
          intro heq
          rw [heq, h] at hk2
          exact Option.noConfusion hk2
        simpa [alookup, hne] using h
      · intro k' hk'
        have : k2 ≠ k' := fun heq => hk' heq.symm
        simp [alookup, this]

theorem C8_witness :
    alookup demo.cache (str "k") = some [str "aa", str "ab"] ∧
    alookup (cache_completion demo (str "k2") (str "t") (str "l") 0 0).2.cache (str "k") =
      some [str "aa", str "ab"] :=
  ⟨rfl, (C8_cache_frame demo (str "k") [str "aa", str "ab"] (str "k2") (str "t") (str "l")
    0 0 rfl).1⟩

/-- C2: for every state index `s > 0`, `complete(text, s)` does not recompute
anything: it returns the element at index `s` of the stored
`completion_matches` list (computed when the state was 0) unchanged-state, and
that indexing yields `None` — not an exception — whenever `s` is out of
range. -/
theorem C2_complete_replay (st : Interp) (rl : Readline) (text : Str) (s : Nat)
    (hs : 0 < s) :
    complete st rl text s = .ok st.completion_matches[s]? st ∧
    (st.completion_matches.length ≤ s → st.completion_matches[s]? = none) := by
  constructor
  · unfold complete
    rw [if_neg (Nat.pos_iff_ne_zero.mp hs)]
  · intro h
    exact List.getElem?_eq_none h

theorem C2_witness :
    0 < 2 ∧ complete demo ⟨str "qu", 0, 2⟩ (str "qu") 2 = .ok none demo :=
  ⟨by decide, (C2_complete_replay demo ⟨str "qu", 0, 2⟩ (str "qu") 2 (by decide)).1⟩

/-- C10 (implicit): `completenames` lists every matching command-name
candidate (in attribute-listing order) first, followed by the matching
alias-name candidates exactly when `SHOW_ALIAS` is set — the two blocks are
concatenated, never interleaved. -/
theorem C10_completenames_layout (st : Interp) (text : Str) :
    completenames st text =
      cmdCandidates st text ++
        (if st.show_alias then aliasCandidates st text else []) := by
  unfold completenames cmdCandidates aliasCandidates
  rfl

theorem C1_witness :
    ∃ cands,
      alookup (cache_completion demo (str "k") (str "a") (str "x ab y") 0 0).2.cache
        (str "k") = some cands ∧
      cands = (alookup demo.cache (str "k")).getD (demo.completion_source (str "k")) ∧
      (∀ i ∈ (cache_completion demo (str "k") (str "a") (str "x ab y") 0 0).1,
        i ∈ cands ∧ str "a" <+: i ∧ ¬ i <:+: str "x ab y") ∧
      (∀ t2 l2 b2 e2,
        ∀ i ∈ (cache_completion (cache_completion demo (str "k") (str "a") (str "x ab y") 0 0).2
                 (str "k") t2 l2 b2 e2).1, i ∈ cands) :=
  C1_cache_completion_sound demo (str "k") (str "a") (str "x ab y") 0 0

section StripLemmas

theorem pyRStrip_cons (c : Char) (x : Str) :
    pyRStrip (c :: x) =
      if pyRStrip x = [] ∧ pyIsSpace c then [] else c :: pyRStrip x := by
  unfold pyRStrip
  rw [show (c :: x).reverse = x.reverse ++ [c] by simp]
  rw [List.dropWhile_append]
  by_cases hx : (x.reverse.dropWhile pyIsSpace).isEmpty
  · rw [if_pos hx]
    have hxe : x.reverse.dropWhile pyIsSpace = [] := by
      simpa [List.isEmpty_iff] using hx
    by_cases hc : pyIsSpace c
    · simp [List.dropWhile, hc, hxe]
    · simp [List.dropWhile, hc, hxe]
  · rw [if_neg hx]
    have hxe : x.reverse.dropWhile pyIsSpace ≠ [] := by
      simpa [List.isEmpty_iff] using hx
    have : (x.reverse.dropWhile pyIsSpace).reverse ≠ [] := by
      simpa using hxe
    simp [this]

theorem pyRStrip_eq_nil_iff {x : Str} :
    pyRStrip x = [] ↔ ∀ c ∈ x, pyIsSpace c := by
  induction x with
  | nil => simp [pyRStrip]
  | cons c x ih =>
      rw [pyRStrip_cons]
      by_cases h : pyRStrip x = [] ∧ pyIsSpace c
      · rw [if_pos h]
        simp only [List.mem_cons, forall_eq_or_imp]
        exact iff_of_true trivial ⟨h.2, ih.mp h.1⟩
      · rw [if_neg h]
        simp only [List.mem_cons, forall_eq_or_imp]
        constructor
        · intro hcontr
          exact absurd hcontr (List.cons_ne_nil _ _)
        · intro ⟨hc, hall⟩
          exact absurd ⟨ih.mpr hall, hc⟩ h

theorem pyLStrip_eq_nil_of_all : ∀ {x : Str}, (∀ c ∈ x, pyIsSpace c) → pyLStrip x = []
  | [], _ => rfl
  | c :: x, h => by
      unfold pyLStrip
      rw [List.dropWhile_cons, if_pos (h c (List.mem_cons_self c x))]
      exact pyLStrip_eq_nil_of_all (fun d hd => h d (List.mem_cons_of_mem c hd))

theorem pyRStrip_idem (x : Str) : pyRStrip (pyRStrip x) = pyRStrip x := by
  induction x with
  | nil => rfl
  | cons c x ih =>
      rw [pyRStrip_cons]
      by_cases h : pyRStrip x = [] ∧ pyIsSpace c
      · rw [if_pos h]
        rfl
      · rw [if_neg h, pyRStrip_cons, ih]
        rw [if_neg h]

theorem pyLStrip_pyRStrip_comm (x : Str) :
    pyLStrip (pyRStrip x) = pyRStrip (pyLStrip x) := by
  induction x with
  | nil => rfl
  | cons c x ih =>
      rw [pyRStrip_cons]
      by_cases h : pyRStrip x = [] ∧ pyIsSpace c
      · have hall : ∀ d ∈ x, pyIsSpace d = true := pyRStrip_eq_nil_iff.mp h.1
        have : pyLStrip (c :: x) = [] :=
          pyLStrip_eq_nil_of_all (by
            intro d hd
            rcases List.mem_cons.mp hd with hd | hd
            · exact hd ▸ h.2
            · exact hall d hd)
        rw [if_pos h, this]
        rfl
      · rw [if_neg h]
        by_cases hc : pyIsSpace c
        · have hne : pyRStrip x ≠ [] := by
            intro hnil
            exact h ⟨hnil, hc⟩
          have h1 : pyLStrip (c :: pyRStrip x) = pyLStrip (pyRStrip x) := by
            unfold pyLStrip
            simp [List.dropWhile_cons, hc]
          have h2 : pyLStrip (c :: x) = pyLStrip x := by
            unfold pyLStrip
            simp [List.dropWhile_cons, hc]
          rw [h1, h2, ih]
        · have h1 : pyLStrip (c :: pyRStrip x) = c :: pyRStrip x := by
            unfold pyLStrip
            simp [List.dropWhile_cons, hc]
          have h2 : pyLStrip (c :: x) = c :: x := by
            unfold pyLStrip
            simp [List.dropWhile_cons, hc]
          rw [h1, h2, pyRStrip_cons]
          rw [if_neg h]

theorem pyStrip_pyRStrip (x : Str) : pyStrip (pyRStrip x) = pyStrip x := by
  unfold pyStrip
  rw [pyLStrip_pyRStrip_comm, pyRStrip_idem]

theorem pyStrip_cons_space (x : Str) : pyStrip (' ' :: x) = pyStrip x := by
  unfold pyStrip pyLStrip
  simp [List.dropWhile_cons, pyIsSpace]

theorem pyRStrip_append_of_nonspace {A : Str} (z : Str)
    (hA : ∀ c ∈ A, pyIsSpace c = false) :
    pyRStrip (A ++ z) = A ++ pyRStrip z := by
  induction A with
  | nil => rfl
  | cons a A ih =>
      have ha : pyIsSpace a = false := hA a (List.mem_cons_self a A)
      rw [List.cons_append, pyRStrip_cons,
        if_neg (by simp [ha]), ih (fun c hc => hA c (List.mem_cons_of_mem a hc)),
        List.cons_append]

theorem ident_not_space {c : Char} (h : isIdentChar c = true) :
    pyIsSpace c = false := by
  have hc : c ≠ ' ' ∧ c ≠ '\t' ∧ c ≠ '\n' ∧ c ≠ '\r' ∧ c ≠ '\x0b' ∧ c ≠ '\x0c' := by
    unfold isIdentChar at h
    simp only [Bool.or_eq_true, Bool.and_eq_true, decide_eq_true_eq] at h
    refine ⟨?_, ?_, ?_, ?_, ?_, ?_⟩ <;>
      (intro hEq
       subst hEq
       rcases h with ((⟨h1, h2⟩ | ⟨h1, h2⟩) | ⟨h1, h2⟩) | h1 <;> revert h1 <;> decide)
  unfold pyIsSpace
  simp [hc.1, hc.2.1, hc.2.2.1, hc.2.2.2.1, hc.2.2.2.2.1, hc.2.2.2.2.2]

end StripLemmas

section LookupLemmas

theorem alookup_eq_none {α : Type} {l : List (Str × α)} {k : Str} :
    alookup l k = none ↔ k ∉ l.map Prod.fst := by
  induction l with
  | nil => simp [alookup]
  | cons p rest ih =>
      obtain ⟨k', v⟩ := p
      by_cases h : k' = k
      · subst h
        have h1 : alookup ((k', v) :: rest) k' = some v := by
          unfold alookup
          rw [if_pos rfl]
        have h2 : k' ∈ List.map Prod.fst ((k', v) :: rest) := by
          rw [List.map_cons]
          exact List.mem_cons_self _ _
        exact iff_of_false
          (by
            rw [h1]
            exact fun hc => Option.noConfusion hc)
          (fun hc => hc h2)
      · simp only [alookup, if_neg h, List.map_cons, List.mem_cons]
        rw [ih]
        constructor
        · intro hm hcontra
          rcases hcontra with hEq | hm2
          · exact h hEq.symm
          · exact hm hm2
        · intro hm hm2
          exact hm (Or.inr hm2)

theorem mem_of_alookup_some {α : Type} {l : List (Str × α)} {k : Str} {v : α}
    (h : alookup l k = some v) : k ∈ l.map Prod.fst := by
  by_contra hmem
  rw [← alookup_eq_none] at hmem
  rw [h] at hmem
  exact Option.noConfusion hmem

theorem head_filter_pair_right {names : List Str} {k1 k2 : Str}
    (hk1 : k1 ∉ names) (hk2 : k2 ∈ names) :
    ∃ rest, names.filter (fun n => n = k1 || n = k2) = k2 :: rest := by
  induction names with
  | nil => cases hk2
  | cons n ns ih =>
      rw [List.filter_cons]
      by_cases hn2 : n = k2
      · subst hn2
        rw [if_pos (by simp)]
        exact ⟨ns.filter _, rfl⟩
      · have hn1 : n ≠ k1 := by
          intro hEq
          exact hk1 (hEq ▸ List.mem_cons_self n ns)
        rw [if_neg (by simp [hn1, hn2])]
        exact ih (fun hm => hk1 (List.mem_cons_of_mem n hm))
          (by
            rcases List.mem_cons.mp hk2 with hEq | hm
            · exact absurd hEq.symm hn2
            · exact hm)

theorem head_filter_pair_left {names : List Str} {k1 k2 : Str}
    (hk1 : k1 ∈ names) (hk2 : k2 ∉ names) :
    ∃ rest, names.filter (fun n => n = k1 || n = k2) = k1 :: rest := by
  induction names with
  | nil => cases hk1
  | cons n ns ih =>
      rw [List.filter_cons]
      by_cases hn1 : n = k1
      · subst hn1
        rw [if_pos (by simp)]
        exact ⟨ns.filter _, rfl⟩
      · have hn2 : n ≠ k2 := by
          intro hEq
          exact hk2 (hEq ▸ List.mem_cons_self n ns)
        rw [if_neg (by simp [hn1, hn2])]
        exact ih
          (by
            rcases List.mem_cons.mp hk1 with hEq | hm
            · exact absurd hEq.symm hn1
            · exact hm)
          (fun hm => hk2 (List.mem_cons_of_mem n hm))

end LookupLemmas

section ParseLemmas

theorem ident_ne_qmark {c : Char} (h : isIdentChar c = true) : c ≠ '?' := by
  intro hEq
  subst hEq
  exact absurd h (by decide)

theorem ident_ne_bang {c : Char} (h : isIdentChar c = true) : c ≠ '!' := by
  intro hEq
  subst hEq
  exact absurd h (by decide)

theorem pyRStrip_space_cons (S : Str) :
    pyRStrip (' ' :: S) = [] ∨ pyRStrip (' ' :: S) = ' ' :: pyRStrip S := by
  rw [pyRStrip_cons]
  by_cases h : pyRStrip S = []
  · left
    rw [if_pos ⟨h, by decide⟩]
  · right
    rw [if_neg (by simp [h])]

theorem parseline_token (st : Interp) (A S : Str) (hAne : A ≠ [])
    (hAid : ∀ c ∈ A, isIdentChar c = true) :
    parseline st (A ++ ' ' :: S) =
      .parsed A (pyStrip S) (A ++ pyRStrip (' ' :: S)) := by
  have hAns : ∀ c ∈ A, pyIsSpace c = false := fun c hc => ident_not_space (hAid c hc)
  obtain ⟨a, A', rfl⟩ : ∃ a A', A = a :: A' := by
    cases A with
    | nil => exact absurd rfl hAne
    | cons a A' => exact ⟨a, A', rfl⟩
  have ha : isIdentChar a = true := hAid a (List.mem_cons_self a A')
  have hstrip : pyStrip ((a :: A') ++ ' ' :: S) = (a :: A') ++ pyRStrip (' ' :: S) := by
    unfold pyStrip pyLStrip
    rw [List.cons_append, List.dropWhile_cons,
      if_neg (by simp [hAns a (List.mem_cons_self a A')])]
    exact pyRStrip_append_of_nonspace _ hAns
  have htake : ((a :: A') ++ pyRStrip (' ' :: S)).takeWhile isIdentChar = a :: A' := by
    rw [List.takeWhile_append_of_pos hAid]
    rcases pyRStrip_space_cons S with h | h <;> rw [h]
    · simp
    · rw [List.takeWhile_cons, if_neg (by decide)]
      simp
  have hdrop : ((a :: A') ++ pyRStrip (' ' :: S)).dropWhile isIdentChar =
      pyRStrip (' ' :: S) := by
    rw [List.dropWhile_append_of_pos hAid]
    rcases pyRStrip_space_cons S with h | h <;> rw [h]
    · rfl
    · rw [List.dropWhile_cons, if_neg (by decide)]
  have harg : pyStrip (pyRStrip (' ' :: S)) = pyStrip S := by
    rw [pyStrip_pyRStrip, pyStrip_cons_space]
  unfold parseline
  rw [hstrip, List.cons_append]
  simp only [if_neg (ident_ne_qmark ha), if_neg (ident_ne_bang ha)]
  unfold scanLine
  rw [show a :: (A' ++ pyRStrip (' ' :: S)) = (a :: A') ++ pyRStrip (' ' :: S) from rfl,
    htake, hdrop, harg]

end ParseLemmas

/-- C4: dispatching `"A S"` where the alias `A` is bound to the same handler
as the target command `T` invokes exactly the handler and argument that
dispatching `"T S"` invokes: the identical handler `h` applied to the
identical argument string. -/
theorem C4_alias_dispatch (st : Interp) (A T S : Str) (h : Handler)
    (hAne : A ≠ []) (hAid : ∀ c ∈ A, isIdentChar c = true)
    (hTne : T ≠ []) (hTid : ∀ c ∈ T, isIdentChar c = true)
    (halias : alookup st.attrs (wrap_alias A) = some h)
    (htgt : alookup st.attrs (str "do_" ++ T) = some h)
    (hnoA : alookup st.attrs (str "do_" ++ A) = none)
    (hnoT : alookup st.attrs (wrap_alias T) = none) :
    defaultDispatch st (A ++ ' ' :: S) = .invoked h (pyStrip S) ∧
    defaultDispatch st (T ++ ' ' :: S) = .invoked h (pyStrip S) := by
  constructor
  · unfold defaultDispatch
    rw [parseline_token st A S hAne hAid]
    have hk1 : str "do_" ++ A ∉ get_names st := alookup_eq_none.mp hnoA
    have hk2 : str "alias_" ++ A ∈ get_names st := mem_of_alookup_some halias
    obtain ⟨rest, hfil⟩ := head_filter_pair_right hk1 hk2
    simp only [hfil]
    have : alookup st.attrs (str "alias_" ++ A) = some h := halias
    simp only [this]
  · unfold defaultDispatch
    rw [parseline_token st T S hTne hTid]
    have hk1 : str "do_" ++ T ∈ get_names st := mem_of_alookup_some htgt
    have hk2 : str "alias_" ++ T ∉ get_names st := alookup_eq_none.mp hnoT
    obtain ⟨rest, hfil⟩ := head_filter_pair_left hk1 hk2
    simp only [hfil]
    simp only [htgt]

theorem C4_witness :
    defaultDispatch demo (str "q" ++ ' ' :: str "now") = .invoked hQuit (pyStrip (str "now")) ∧
    defaultDispatch demo (str "quit" ++ ' ' :: str "now") = .invoked hQuit (pyStrip (str "now")) :=
  C4_alias_dispatch demo (str "q") (str "quit") (str "now") hQuit
    (by decide) (by decide) (by decide) (by decide) rfl rfl rfl rfl

section AliasLemmas

theorem splitOnChar_no_sep {sep : Char} :
    ∀ {A : Str}, (∀ c ∈ A, c ≠ sep) → splitOnChar sep A = [A]
  | [], _ => rfl
  | c :: A, h => by
      have hrec : splitOnChar sep A = [A] :=
        splitOnChar_no_sep (fun d hd => h d (List.mem_cons_of_mem c hd))
      unfold splitOnChar
      rw [hrec]
      show (if c = sep then [] :: A :: ([] : List Str) else (c :: A) :: []) = [c :: A]
      rw [if_neg (h c (List.mem_cons_self c A))]

theorem alookup_aremove_self {l : List (Str × Handler)} {k : Str}
    (hnodup : (l.map Prod.fst).Nodup) :
    alookup (aremove l k) k = none := by
  induction l with
  | nil => rfl
  | cons p rest ih =>
      obtain ⟨k', v⟩ := p
      rw [List.map_cons, List.nodup_cons] at hnodup
      unfold aremove
      by_cases h : k' = k
      · rw [if_pos h]
        subst h
        exact alookup_eq_none.mpr hnodup.1
      · rw [if_neg h]
        unfold alookup
        rw [if_neg h]
        exact ih hnodup.2

end AliasLemmas

/-- C6: issuing the `alias` command with a bare name `A` (no target) is a
deletion and is idempotent: when no alias `A` exists the state is unchanged
and nothing is written (no error); when alias `A` exists, the first call
removes exactly that binding and a second identical call is a no-op. -/
theorem C6_alias_delete_idempotent (st : Interp) (A : Str)
    (hA : A ≠ []) (hsp : ∀ c ∈ A, c ≠ ' ')
    (hnodup : (get_names st).Nodup) :
    (alookup st.attrs (wrap_alias A) = none →
      do_alias st A false = some (st, [], none)) ∧
    (∀ h, alookup st.attrs (wrap_alias A) = some h →
      ∃ st', do_alias st A false = some (st', [], none) ∧
        st'.attrs = aremove st.attrs (wrap_alias A) ∧
        alookup st'.attrs (wrap_alias A) = none ∧
        do_alias st' A false = some (st', [], none)) := by
  have hparts : splitOnChar ' ' A = [A] := splitOnChar_no_sep hsp
  constructor
  · intro hnone
    unfold do_alias
    rw [if_pos hA]
    simp only [hparts]
    simp only [List.getElem?_cons_zero, List.getElem?_nil, List.headI]
    simp only [show ([A] : List Str)[1]? = none from rfl]
    rw [hnone]
    simp
  · intro h hsome
    refine ⟨{ st with
        attrs := aremove st.attrs (wrap_alias A)
        aliases := get_aliases { st with attrs := aremove st.attrs (wrap_alias A) } },
      ?_, rfl, ?_, ?_⟩
    · unfold do_alias
      rw [if_pos hA]
      simp only [hparts]
      simp only [show ([A] : List Str)[1]? = none from rfl]
      simp only [List.headI]
      rw [hsome]
      simp
    · exact alookup_aremove_self hnodup
    · unfold do_alias
      rw [if_pos hA]
      simp only [hparts]
      simp only [show ([A] : List Str)[1]? = none from rfl]
      simp only [List.headI]
      rw [alookup_aremove_self hnodup]
      simp

theorem C6_witness :
    ∃ st', do_alias demo (str "q") false = some (st', [], none) ∧
      st'.attrs = aremove demo.attrs (wrap_alias (str "q")) ∧
      alookup st'.attrs (wrap_alias (str "q")) = none ∧
      do_alias st' (str "q") false = some (st', [], none) :=
  (C6_alias_delete_idempotent demo (str "q") (by decide) (by decide) (by decide)).2
    hQuit rfl

section CompletenamesLemmas

theorem count_eq_one_of_nodup_mem {α : Type} [BEq α] [LawfulBEq α] {l : List α} {a : α}
    (hn : l.Nodup) (h : a ∈ l) : l.count a = 1 := by
  induction l with
  | nil => cases h
  | cons b t ih =>
      rw [List.nodup_cons] at hn
      rw [List.count_cons]
      rcases List.mem_cons.mp h with hEq | hm
      · subst hEq
        rw [if_pos (by simp), List.count_eq_zero.mpr hn.1]
      · have hne : b ≠ a := by
          intro hEq
          exact hn.1 (hEq ▸ hm)
        rw [if_neg (by simp [hne]), ih hn.2 hm]

theorem drop3_do (X : Str) : List.drop 3 (str "do_" ++ X) = X :=
  List.drop_left (str "do_") X

theorem drop6_alias (X : Str) : List.drop 6 (str "alias_" ++ X) = X :=
  List.drop_left (str "alias_") X

theorem do_prefix_of_filtered {p a : Str}
    (hpa : (str "do_" ++ p).isPrefixOf a = true) : a = str "do_" ++ a.drop 3 := by
  have h3 : str "do_" <+: a :=
    List.IsPrefix.trans (List.prefix_append _ _) (List.isPrefixOf_iff_prefix.mp hpa)
  have := List.prefix_iff_eq_append.mp h3
  conv_lhs => rw [← this]
  rfl

theorem alias_prefix_of_filtered {p a : Str}
    (hpa : (str "alias_" ++ p).isPrefixOf a = true) : a = str "alias_" ++ a.drop 6 := by
  have h6 : str "alias_" <+: a :=
    List.IsPrefix.trans (List.prefix_append _ _) (List.isPrefixOf_iff_prefix.mp hpa)
  have := List.prefix_iff_eq_append.mp h6
  conv_lhs => rw [← this]
  rfl

theorem cmdCandidates_count_one {st : Interp} {p X : Str} {hh : Handler}
    (hnodup : (get_names st).Nodup)
    (hlook : alookup st.attrs (str "do_" ++ X) = some hh)
    (hdoc : hh.hdoc.isSome = true) (hpre : p <+: X) :
    (cmdCandidates st p).count X = 1 := by
  unfold cmdCandidates
  set q := fun a => (str "do_" ++ p).isPrefixOf a && docIsSome st a with hq
  have hmemL : str "do_" ++ X ∈ (get_names st).filter q := by
    rw [List.mem_filter]
    refine ⟨mem_of_alookup_some hlook, ?_⟩
    rw [hq]
    simp only [Bool.and_eq_true]
    constructor
    · exact List.isPrefixOf_iff_prefix.mpr
        ((List.prefix_append_right_inj (str "do_")).mpr hpre)
    · unfold docIsSome
      rw [hlook]
      exact hdoc
  have hnodupL : ((get_names st).filter q).Nodup := List.Nodup.filter q hnodup
  have hinj : ∀ x ∈ (get_names st).filter q, ∀ y ∈ (get_names st).filter q,
      x.drop 3 = y.drop 3 → x = y := by
    intro x hx y hy hxy
    have hxq := (List.mem_filter.mp hx).2
    have hyq := (List.mem_filter.mp hy).2
    rw [hq] at hxq hyq
    simp only [Bool.and_eq_true] at hxq hyq
    rw [do_prefix_of_filtered hxq.1, do_prefix_of_filtered hyq.1, hxy]
  apply count_eq_one_of_nodup_mem (List.Nodup.map_on hinj hnodupL)
  exact List.mem_map.mpr ⟨str "do_" ++ X, hmemL, drop3_do X⟩

theorem not_mem_aliasCandidates {st : Interp} {p X : Str}
    (hnoalias : str "alias_" ++ X ∉ get_names st) :
    X ∉ aliasCandidates st p := by
  intro hmem
  unfold aliasCandidates at hmem
  obtain ⟨a, ha, hdrop⟩ := List.mem_map.mp hmem
  rw [List.mem_filter] at ha
  have hpa := ha.2
  simp only [Bool.and_eq_true] at hpa
  have : a = str "alias_" ++ X := by
    rw [alias_prefix_of_filtered hpa.1, hdrop]
  exact hnoalias (this ▸ ha.1)

end CompletenamesLemmas

/-- C3: `completenames(p)` contains exactly once every registered command name
starting with `p` whose doc string is non-empty; with `SHOW_ALIAS` unset
(the default) every candidate is a command name, and with `SHOW_ALIAS` set it
additionally contains every alias name starting with `p` whose bound handler
has a doc string.  (The hypotheses are the attribute-namespace invariants:
`dir` lists each attribute once, and an alias name never collides with a
command name.) -/
theorem C3_completenames_contract (st : Interp) (p : Str)
    (hnodup : (get_names st).Nodup)
    (hdisj : ∀ a ∈ get_names st, (str "do_").isPrefixOf a = true →
      str "alias_" ++ a.drop 3 ∉ get_names st) :
    (∀ X hh d, alookup st.attrs (str "do_" ++ X) = some hh → hh.hdoc = some d →
      d ≠ [] → p <+: X → (completenames st p).count X = 1) ∧
    (st.show_alias = false →
      ∀ X ∈ completenames st p, p <+: X ∧
        ∃ hh, alookup st.attrs (str "do_" ++ X) = some hh ∧ hh.hdoc.isSome = true) ∧
    (st.show_alias = true →
      ∀ A hh, alookup st.attrs (wrap_alias A) = some hh → hh.hdoc.isSome = true →
        p <+: A → A ∈ completenames st p) := by
  have hlayout : completenames st p =
      cmdCandidates st p ++ (if st.show_alias then aliasCandidates st p else []) := by
    unfold completenames cmdCandidates aliasCandidates
    rfl
  refine ⟨?_, ?_, ?_⟩
  · intro X hh d hlook hdoc hdne hpre
    rw [hlayout, List.count_append]
    rw [cmdCandidates_count_one hnodup hlook (by rw [hdoc]; rfl) hpre]
    have hzero : (if st.show_alias then aliasCandidates st p else []).count X = 0 := by
      cases hsa : st.show_alias with
      | false => rfl
      | true =>
          rw [if_pos rfl]
          apply List.count_eq_zero.mpr
          apply not_mem_aliasCandidates
          have hmem : str "do_" ++ X ∈ get_names st := mem_of_alookup_some hlook
          have := hdisj (str "do_" ++ X) hmem
            (List.isPrefixOf_iff_prefix.mpr (List.prefix_append _ _))
          rw [drop3_do] at this
          exact this
    rw [hzero]
  · intro hsa X hmem
    rw [hlayout, hsa, if_neg (by simp), List.append_nil] at hmem
    unfold cmdCandidates at hmem
    obtain ⟨a, ha, hdrop⟩ := List.mem_map.mp hmem
    rw [List.mem_filter] at ha
    have hpa := ha.2
    simp only [Bool.and_eq_true] at hpa
    have haX : a = str "do_" ++ X := by
      rw [do_prefix_of_filtered hpa.1, hdrop]
    constructor
    · have : str "do_" ++ p <+: str "do_" ++ X := by
        rw [← haX]
        exact List.isPrefixOf_iff_prefix.mp hpa.1
      exact (List.prefix_append_right_inj (str "do_")).mp this
    · have hdocX := hpa.2
      unfold docIsSome at hdocX
      rw [haX] at hdocX
      cases hl : alookup st.attrs (str "do_" ++ X) with
      | none =>
          rw [hl] at hdocX
          exact absurd hdocX (by simp)
      | some hh =>
          rw [hl] at hdocX
          exact ⟨hh, rfl, hdocX⟩
  · intro hsa A hh hlook hdoc hpre
    rw [hlayout, hsa, if_pos rfl]
    apply List.mem_append_right
    unfold aliasCandidates
    apply List.mem_map.mpr
    refine ⟨str "alias_" ++ A, ?_, drop6_alias A⟩
    rw [List.mem_filter]
    refine ⟨mem_of_alookup_some hlook, ?_⟩
    simp only [Bool.and_eq_true]
    constructor
    · exact List.isPrefixOf_iff_prefix.mpr
        ((List.prefix_append_right_inj (str "alias_")).mpr hpre)
    · unfold docIsSome
      rw [show alookup st.attrs (str "alias_" ++ A) = some hh from hlook]
      exact hdoc

theorem C3_witness :
    (completenames demoShow (str "q")).count (str "quit") = 1 ∧
    str "q" ∈ completenames demoShow (str "q") :=
  ⟨(C3_completenames_contract demoShow (str "q") (by decide) (by decide)).1
      (str "quit") hQuit (str "exit the shell") rfl rfl (by decide) (by decide),
   (C3_completenames_contract demoShow (str "q") (by decide) (by decide)).2.2 rfl
      (str "q") hQuit rfl rfl (by decide)⟩

/-- C5 (code-bug evaluation): constructing `AliasCmdInterpreter` with the
default flags (`enable_alias=True, force_alias=False`) seeds the attribute
`alias_a` via `__default_alias` but does not recompute `self.aliases`: the
cached Alias Set stays empty while `get_aliases()` already reports `{'a'}`,
so the invariant claimed for the default-alias seeding fails on the code. -/
theorem C5_seed_leaves_alias_set_stale :
    (mkInterp classAttrs hAliasCmd true false).aliases = [] ∧
    get_aliases (mkInterp classAttrs hAliasCmd true false) = [str "a"] ∧
    (mkInterp classAttrs hAliasCmd true false).aliases ≠
      get_aliases (mkInterp classAttrs hAliasCmd true false) := by
  refine ⟨?_, ?_, ?_⟩ <;> decide

/-- C9 counterexample: in a state where the command `x` exists with no doc
string while the alias `x` is bound to a handler with a non-empty doc string,
`do_help('x')` writes the no-help message instead of consulting the alias
target's doc string, contradicting the claimed fallback order. -/
theorem C9_counterexample :
    alookup helpBug.attrs (str "help_" ++ str "x") = none ∧
    alookup helpBug.attrs (str "do_" ++ str "x") = some hNoDoc ∧
    hNoDoc.hdoc = none ∧
    alookup helpBug.attrs (wrap_alias (str "x")) = some hQuit ∧
    hQuit.hdoc = some (str "exit the shell") ∧
    do_help helpBug (str "x") = .nohelp :=
  ⟨rfl, rfl, rfl, rfl, rfl, rfl⟩

/-- C9 (amended): for every non-empty help topic, `do_help` invokes the
dedicated `help_<arg>` provider if that attribute exists; otherwise, when a
command `do_<arg>` exists, it prints that command's doc string exactly when it
is non-empty and writes the no-help message otherwise — without consulting
the alias target; only when no `do_<arg>` attribute exists at all does it
fall back to the alias target's doc string (printed when non-empty), writing
the no-help message in every remaining case — never raising and never
terminating the session. -/
theorem C9_help_chain (st : Interp) (arg : Str) (hne : arg ≠ []) :
    (∀ hh, alookup st.attrs (str "help_" ++ arg) = some hh →
      do_help st arg = .provider hh) ∧
    (alookup st.attrs (str "help_" ++ arg) = none →
      ∀ hh d, alookup st.attrs (str "do_" ++ arg) = some hh →
        hh.hdoc = some d → d ≠ [] → do_help st arg = .doc d) ∧
    (alookup st.attrs (str "help_" ++ arg) = none →
      ∀ hh, alookup st.attrs (str "do_" ++ arg) = some hh →
        (∀ d, hh.hdoc = some d → d = []) → do_help st arg = .nohelp) ∧
    (alookup st.attrs (str "help_" ++ arg) = none →
      alookup st.attrs (str "do_" ++ arg) = none →
      ∀ hh d, alookup st.attrs (wrap_alias arg) = some hh →
        hh.hdoc = some d → d ≠ [] → do_help st arg = .doc d) ∧
    (alookup st.attrs (str "help_" ++ arg) = none →
      alookup st.attrs (str "do_" ++ arg) = none →
      ∀ hh, alookup st.attrs (wrap_alias arg) = some hh →
        (∀ d, hh.hdoc = some d → d = []) → do_help st arg = .nohelp) ∧
    (alookup st.attrs (str "help_" ++ arg) = none →
      alookup st.attrs (str "do_" ++ arg) = none →
      alookup st.attrs (wrap_alias arg) = none → do_help st arg = .nohelp) := by
  refine ⟨?_, ?_, ?_, ?_, ?_, ?_⟩
  · intro hh hhelp
    unfold do_help
    rw [if_pos hne]
    simp only [hhelp]
  · intro h0 hh d hdo hdoc hdne
    unfold do_help
    rw [if_pos hne]
    simp only [h0, hdo, hdoc]
    rw [if_pos hdne]
  · intro h0 hh hdo hfalsy
    unfold do_help
    rw [if_pos hne]
    simp only [h0, hdo]
    cases hd : hh.hdoc with
    | none => rfl
    | some d =>
        have hdnil : d = [] := hfalsy d hd
        subst hdnil
        simp
  · intro h0 hdo hh d halias hdoc hdne
    unfold do_help
    rw [if_pos hne]
    simp only [h0, hdo, show alookup st.attrs (str "alias_" ++ arg) = some hh from halias,
      hdoc]
    rw [if_pos hdne]
  · intro h0 hdo hh halias hfalsy
    unfold do_help
    rw [if_pos hne]
    simp only [h0, hdo, show alookup st.attrs (str "alias_" ++ arg) = some hh from halias]
    cases hd : hh.hdoc with
    | none => rfl
    | some d =>
        have hdnil : d = [] := hfalsy d hd
        subst hdnil
        simp
  · intro h0 hdo halias
    unfold do_help
    rw [if_pos hne]
    simp only [h0, hdo, show alookup st.attrs (str "alias_" ++ arg) = none from halias]

theorem C9_witness :
    (str "quit" ≠ []) ∧ do_help demo (str "quit") = .doc (str "exit the shell") :=
  ⟨by decide,
   (C9_help_chain demo (str "quit") (by decide)).2.1 rfl hQuit
     (str "exit the shell") rfl rfl (by decide)⟩

section RoundTripLemmas

theorem ident_ne_colon {c : Char} (h : isIdentChar c = true) : c ≠ ':' := by
  intro hEq
  subst hEq
  exact absurd h (by decide)

theorem ident_ne_newline {c : Char} (h : isIdentChar c = true) : c ≠ '\n' := by
  intro hEq
  subst hEq
  exact absurd h (by decide)

theorem splitOnChar_ne_nil {sep : Char} : ∀ (s : Str), splitOnChar sep s ≠ []
  | [] => by simp [splitOnChar]
  | c :: rest => by
      unfold splitOnChar
      cases h : splitOnChar sep rest with
      | nil => simp
      | cons hd tl => by_cases hc : c = sep <;> simp [hc]

theorem splitOnChar_cons (sep c : Char) (rest : Str) :
    splitOnChar sep (c :: rest) =
      match splitOnChar sep rest with
      | [] => [[]]
      | h :: t => if c = sep then [] :: h :: t else (c :: h) :: t := rfl

theorem splitOnChar_append_sep {sep : Char} :
    ∀ {x : Str} (y : Str), (∀ c ∈ x, c ≠ sep) →
      splitOnChar sep (x ++ sep :: y) = x :: splitOnChar sep y
  | [], y, _ => by
      show splitOnChar sep (sep :: y) = [] :: splitOnChar sep y
      rw [splitOnChar_cons]
      cases h : splitOnChar sep y with
      | nil => exact absurd h (splitOnChar_ne_nil y)
      | cons hd tl =>
          show (if sep = sep then [] :: hd :: tl else (sep :: hd) :: tl) = [] :: hd :: tl
          rw [if_pos rfl]
  | c :: x, y, h => by
      have hrec : splitOnChar sep (x ++ sep :: y) = x :: splitOnChar sep y :=
        splitOnChar_append_sep y (fun d hd => h d (List.mem_cons_of_mem c hd))
      show splitOnChar sep (c :: (x ++ sep :: y)) = (c :: x) :: splitOnChar sep y
      rw [splitOnChar_cons, hrec]
      show (if c = sep then [] :: x :: splitOnChar sep y
            else (c :: x) :: splitOnChar sep y) = (c :: x) :: splitOnChar sep y
      rw [if_neg (h c (List.mem_cons_self c x))]

theorem splitColonSpace_cons2 (c d : Char) (rest : Str) :
    splitColonSpace (c :: d :: rest) =
      if c = ':' && d = ' ' then some ([], rest)
      else (splitColonSpace (d :: rest)).map (fun p => (c :: p.1, p.2)) := rfl

theorem splitColonSpace_render :
    ∀ {a : Str} (t : Str), (∀ c ∈ a, c ≠ ':') →
      splitColonSpace (a ++ str ": " ++ t) = some (a, t)
  | [], t, _ => by
      show splitColonSpace (':' :: ' ' :: t) = some ([], t)
      rw [splitColonSpace_cons2]
      rw [if_pos (by decide)]
  | [c], t, h => by
      show splitColonSpace (c :: ':' :: ' ' :: t) = some ([c], t)
      rw [splitColonSpace_cons2]
      rw [if_neg (by simp)]
      rw [show splitColonSpace (':' :: ' ' :: t) = some ([], t) from
        splitColonSpace_render t (fun c0 hc0 => absurd hc0 (List.not_mem_nil c0))]
      rfl
  | c :: c2 :: a, t, h => by
      have hrec : splitColonSpace ((c2 :: a) ++ str ": " ++ t) = some (c2 :: a, t) :=
        splitColonSpace_render t (fun d hd => h d (List.mem_cons_of_mem c hd))
      show splitColonSpace (c :: c2 :: (a ++ str ": " ++ t)) = some (c :: c2 :: a, t)
      rw [splitColonSpace_cons2]
      rw [if_neg (by simp [h c (List.mem_cons_self c _)])]
      rw [show splitColonSpace (c2 :: (a ++ str ": " ++ t)) = some (c2 :: a, t) from hrec]
      rfl

theorem parse_render :
    ∀ {es : List (Str × Str)},
      (∀ p ∈ es, (∀ c ∈ p.1, c ≠ ':' ∧ c ≠ '\n') ∧ (∀ c ∈ p.2, c ≠ '\n')) →
      parseAliasLines (renderAliasLines es) = some es
  | [], _ => rfl
  | p :: es, h => by
      have hp := h p (List.mem_cons_self p es)
      have hrec : parseAliasLines (renderAliasLines es) = some es :=
        parse_render (fun q hq => h q (List.mem_cons_of_mem p hq))
      have hassoc : renderAliasLines (p :: es) =
          (p.1 ++ str ": " ++ p.2) ++ '\n' :: renderAliasLines es := by
        unfold renderAliasLines
        simp [List.append_assoc]
        rfl
      have hnonl : ∀ c ∈ p.1 ++ str ": " ++ p.2, c ≠ '\n' := by
        intro c hc
        rcases List.mem_append.mp hc with hc1 | hc2
        · rcases List.mem_append.mp hc1 with hc3 | hc4
          · exact (hp.1 c hc3).2
          · simp only [show str ": " = [':', ' '] from rfl, List.mem_cons,
              List.not_mem_nil, or_false] at hc4
            rcases hc4 with rfl | rfl <;> decide
        · exact hp.2 c hc2
      unfold parseAliasLines at hrec ⊢
      rw [hassoc, splitOnChar_append_sep (renderAliasLines es) hnonl,
        List.dropLast_cons_of_ne_nil (splitOnChar_ne_nil _), List.mapM_cons]
      rw [splitColonSpace_render p.2 (fun c hc => (hp.1 c hc).1)]
      cases hm : ((splitOnChar '\n' (renderAliasLines es)).dropLast).mapM splitColonSpace with
      | none =>
          rw [hm] at hrec
          exact absurd hrec (by simp)
      | some es2 =>
          rw [hm] at hrec
          have hes : es2 = es := Option.some_injective _ hrec
          subst hes
          rfl

theorem mapM_format (st : Interp) :
    ∀ (l : List Str),
      (∀ a ∈ l, ∃ hh, alookup st.attrs (wrap_alias a) = some hh) →
      ∃ es : List (Str × Str),
        (l.mapM (fun a => (alookup st.attrs (wrap_alias a)).map
          (fun h => a ++ str ": " ++ h.hname.drop 3 ++ str "\n"))) =
          some (es.map (fun p => p.1 ++ str ": " ++ p.2 ++ str "\n")) ∧
        es.map Prod.fst = l ∧
        ∀ p ∈ es, ∃ hh, alookup st.attrs (wrap_alias p.1) = some hh ∧
          p.2 = hh.hname.drop 3
  | [], _ => ⟨[], rfl, rfl, fun p hp => absurd hp (List.not_mem_nil p)⟩
  | a :: l, h => by
      obtain ⟨hh, hhh⟩ := h a (List.mem_cons_self a l)
      obtain ⟨es, hes1, hes2, hes3⟩ :=
        mapM_format st l (fun b hb => h b (List.mem_cons_of_mem a hb))
      refine ⟨(a, hh.hname.drop 3) :: es, ?_, ?_, ?_⟩
      · rw [List.mapM_cons, hhh, hes1]
        rfl
      · rw [List.map_cons, hes2]
      · intro p hp
        rcases List.mem_cons.mp hp with rfl | hp2
        · exact ⟨hh, hhh, rfl⟩
        · exact hes3 p hp2

end RoundTripLemmas

/-- C7: the alias-listing string (`do_alias` with empty argument and
`suppress=True`), parsed line-by-line as `name: target`, reconstructs exactly
the current Alias Set, and each entry's target is the canonical
(`do_`-stripped) name of the handler that alias is bound to.  (Hypotheses:
the cached Alias Set is in sync with the live attributes, every cached alias
has a live binding whose handler name is newline-free, and alias names are
made of `identchars` — as produced by the alias-definition surface.) -/
theorem C7_format_roundtrip (st : Interp)
    (hsync : st.aliases = get_aliases st)
    (hbound : ∀ a ∈ st.aliases, ∃ hh, alookup st.attrs (wrap_alias a) = some hh ∧
      ∀ c ∈ hh.hname, c ≠ '\n')
    (hident : ∀ a ∈ st.aliases, ∀ c ∈ a, isIdentChar c = true) :
    ∃ s ps, do_alias st [] true = some (st, [], some s) ∧
      parseAliasLines s = some ps ∧
      ps.map Prod.fst = st.aliases ∧
      ∀ p ∈ ps, ∃ hh, alookup st.attrs (wrap_alias p.1) = some hh ∧
        p.2 = hh.hname.drop 3 := by
  obtain ⟨es, hes1, hes2, hes3⟩ :=
    mapM_format st st.aliases (fun a ha => ⟨(hbound a ha).choose, (hbound a ha).choose_spec.1⟩)
  have hformat : formatAliases st = some (renderAliasLines es) := by
    unfold formatAliases renderAliasLines
    rw [hes1]
    rfl
  have hclean : ∀ p ∈ es, (∀ c ∈ p.1, c ≠ ':' ∧ c ≠ '\n') ∧ (∀ c ∈ p.2, c ≠ '\n') := by
    intro p hp
    have hp1 : p.1 ∈ st.aliases := by
      rw [← hes2]
      exact List.mem_map_of_mem Prod.fst hp
    constructor
    · intro c hc
      have hid := hident p.1 hp1 c hc
      exact ⟨ident_ne_colon hid, ident_ne_newline hid⟩
    · intro c hc
      obtain ⟨hh, hhh, hdrop⟩ := hes3 p hp
      obtain ⟨hh2, hhh2, hnl⟩ := hbound p.1 hp1
      have : hh2 = hh := by
        have := hhh2.symm.trans hhh
        exact Option.some_injective _ this
      subst this
      rw [hdrop] at hc
      exact hnl c (List.mem_of_mem_drop hc)
  refine ⟨renderAliasLines es, es, ?_, parse_render hclean, hes2, hes3⟩
  unfold do_alias
  rw [if_neg (fun hcon => hcon rfl), hformat]
  rfl

theorem C7_witness :
    ∃ s ps, do_alias demo [] true = some (demo, [], some s) ∧
      parseAliasLines s = some ps ∧
      ps.map Prod.fst = demo.aliases ∧
      ∀ p ∈ ps, ∃ hh, alookup demo.attrs (wrap_alias p.1) = some hh ∧
        p.2 = hh.hname.drop 3 :=
  C7_format_roundtrip demo (by decide)
    (by
      intro a ha
      have : a = str "q" := by
        have h1 : demo.aliases = [str "q"] := rfl
        rw [h1] at ha
        rcases List.mem_cons.mp ha with hEq | hcon
        · exact hEq
        · exact absurd hcon (List.not_mem_nil a)
      subst this
      exact ⟨hQuit, rfl, by decide⟩)
    (by
      intro a ha
      have : a = str "q" := by
        have h1 : demo.aliases = [str "q"] := rfl
        rw [h1] at ha
        rcases List.mem_cons.mp ha with hEq | hcon
        · exact hEq
        · exact absurd hcon (List.not_mem_nil a)
      subst this
      intro c hc
      have : c = 'q' := by
        rcases List.mem_cons.mp hc with hEq | hcon
        · exact hEq
        · exact absurd hcon (List.not_mem_nil c)
      subst this
      decide)

end Terps
